import Mathlib

/-!
# Verification of the fingering engine's cost model and DP solver

Shallow embedding of `src/fingering_engine/cost_model.py` and
`src/fingering_engine/solver.py`.

Conventions of the embedding:
* Python floats are modelled as `ℚ`; `math.inf` (the initial "best" of each
  minimisation loop) is the `⊤` of `WithTop ℚ`, so `Cost := WithTop ℚ` with
  `⊤ + x = ⊤` and `x < ⊤` for finite `x`, matching IEEE infinity in the code.
* A raised `ValueError` is an `Except.error` whose payload is the missing
  key (for `__init__`) or the missing finger-pair key (for `stretch_cost`)
  that the Python message names.
* Python dicts keyed by `(hand, finger)` are association lists built in the
  dict's insertion order, which is also the order Python iterates them in
  (`for hand in HANDS: for finger in FINGERS`).
* A note dict carries `pitch`, `start` and possibly `chord_size`
  (`cur_note.get("chord_size", 1)` is `Option.getD · 1`).
-/

namespace Virtuoso

/-- The performing hand, `"L"` or `"R"` in the Python code. -/
inductive Hand : Type
  | L
  | R
deriving DecidableEq, Repr

/-- Finger number; the code uses the integers 1–5. -/
abbrev Finger := ℕ

/-- A DP state: `(hand, finger)`, the `StateKey` tuple of `solver.py`. -/
abbrev DPState := Hand × Finger

/-- Cumulative DP cost: a float that may be `math.inf`. -/
abbrev Cost := WithTop ℚ

/-- A note dict as consumed by `solve`: `pitch`, `start`, and an optional
`chord_size` key (the solver reads it with `dict.get("chord_size", 1)`). -/
structure Note where
  pitch : ℤ
  start : ℚ
  chord_size : Option ℤ
deriving DecidableEq, Repr

/-- The chord size the solver actually uses: `note.get("chord_size", 1)`. -/
def Note.chordSize (n : Note) : ℤ := n.chord_size.getD 1

/-- One output record of `solve`: onset_time, pitch, hand, finger. -/
structure Ann where
  onset_time : ℚ
  pitch : ℤ
  hand : Hand
  finger : Finger
deriving DecidableEq, Repr

/-- The constructed cost model: the fields `__init__` extracts from the
YAML mapping after validating the required top-level keys.
`max_comfortable_span` is the raw string-keyed dict (keys like `"1_3"`). -/
structure FingeringCostModel where
  max_comfortable_span : List (String × ℤ)
  stretch_weight : ℚ
  crossing_weight : ℚ
  repetition_weight : ℚ
  hand_switch_weight : ℚ
  chord_penalty_weight : ℚ
  weak_finger_weight : ℚ
  split_pitch : ℤ
deriving DecidableEq, Repr

/-- The parsed YAML mapping handed to `FingeringCostModel.__init__`: each
required key is either present with a value or absent (`none`). -/
structure RawConfig where
  max_comfortable_span : Option (List (String × ℤ))
  stretch_weight : Option ℚ
  crossing_weight : Option ℚ
  repetition_weight : Option ℚ
  hand_switch_weight : Option ℚ
  chord_penalty_weight : Option ℚ
  weak_finger_weight : Option ℚ
  split_pitch : Option ℤ
deriving Repr

/-- Decidable equality of raised-or-returned results, for evaluating the
embedding on concrete inputs. -/
instance exceptDecEq {α : Type} [DecidableEq α] :
    DecidableEq (Except String α) := fun a b =>
  match a, b with
  | .ok x, .ok y =>
      if h : x = y then isTrue (by rw [h]) else isFalse (by intro hc; cases hc; exact h rfl)
  | .error x, .error y =>
      if h : x = y then isTrue (by rw [h]) else isFalse (by intro hc; cases hc; exact h rfl)
  | .ok _, .error _ => isFalse (by intro hc; cases hc)
  | .error _, .ok _ => isFalse (by intro hc; cases hc)

/-- The `required_keys` list of `__init__`, in source order. -/
def requiredKeys : List String :=
  ["max_comfortable_span", "stretch_weight", "crossing_weight",
   "repetition_weight", "hand_switch_weight", "chord_penalty_weight",
   "weak_finger_weight", "split_pitch"]

/-- `key in self._cfg` for the keys `__init__` tests. -/
def RawConfig.hasKey (cfg : RawConfig) (k : String) : Bool :=
  if k = "max_comfortable_span" then cfg.max_comfortable_span.isSome
  else if k = "stretch_weight" then cfg.stretch_weight.isSome
  else if k = "crossing_weight" then cfg.crossing_weight.isSome
  else if k = "repetition_weight" then cfg.repetition_weight.isSome
  else if k = "hand_switch_weight" then cfg.hand_switch_weight.isSome
  else if k = "chord_penalty_weight" then cfg.chord_penalty_weight.isSome
  else if k = "weak_finger_weight" then cfg.weak_finger_weight.isSome
  else if k = "split_pitch" then cfg.split_pitch.isSome
  else false

/-- The first required key `__init__`'s validation loop finds missing. -/
def findMissingKey (cfg : RawConfig) : Option String :=
  requiredKeys.find? (fun k => ! cfg.hasKey k)

/-- `FingeringCostModel.__init__` (the part after the YAML is parsed):
validates the required top-level keys in order and raises
`ValueError("Missing required key '<k>' ...")` at the first absent one;
the error payload here is the missing key the message names. Note that
`max_comfortable_span` is stored as-is: its finger-pair coverage is *not*
checked here. The `getD` defaults are unreachable after validation. -/
def mkModel (cfg : RawConfig) : Except String FingeringCostModel :=
  match findMissingKey cfg with
  | some k => .error k
  | none =>
      .ok { max_comfortable_span := cfg.max_comfortable_span.getD []
            stretch_weight := cfg.stretch_weight.getD 0
            crossing_weight := cfg.crossing_weight.getD 0
            repetition_weight := cfg.repetition_weight.getD 0
            hand_switch_weight := cfg.hand_switch_weight.getD 0
            chord_penalty_weight := cfg.chord_penalty_weight.getD 0
            weak_finger_weight := cfg.weak_finger_weight.getD 0
            split_pitch := cfg.split_pitch.getD 0 }

/-- `f"{lo}_{hi}"`, the span-table key for a finger pair. -/
def pairKey (lo hi : ℕ) : String := toString lo ++ "_" ++ toString hi

namespace FingeringCostModel

/-- `stretch_cost`: 0 on equal fingers, else looks up the unordered pair in
`max_comfortable_span` (raising a `ValueError` naming the pair when absent)
and charges `excess * stretch_weight` for the interval beyond the span. -/
def stretch_cost (m : FingeringCostModel) (finger_a finger_b : Finger)
    (interval : ℤ) : Except String ℚ :=
  if finger_a = finger_b then .ok 0
  else
    let lo := min finger_a finger_b
    let hi := max finger_a finger_b
    match m.max_comfortable_span.lookup (pairKey lo hi) with
    | none => .error (pairKey lo hi)
    | some max_span =>
        let excess : ℤ := interval - max_span
        if excess ≤ 0 then .ok 0 else .ok ((excess : ℚ) * m.stretch_weight)

/-- `crossing_cost`: `crossing_weight` when pitch order and finger order
disagree (distinct fingers, distinct pitches), else 0. -/
def crossing_cost (m : FingeringCostModel) (finger_a finger_b : Finger)
    (pitch_a pitch_b : ℤ) : ℚ :=
  let pitch_up : Bool := decide (pitch_a < pitch_b)
  let finger_up : Bool := decide (finger_a < finger_b)
  if finger_a = finger_b ∨ pitch_a = pitch_b then 0
  else if pitch_up ≠ finger_up then m.crossing_weight
  else 0

/-- `repetition_cost`: `repetition_weight` when the same finger is reused
on a different pitch, else 0. -/
def repetition_cost (m : FingeringCostModel) (finger_a finger_b : Finger)
    (pitch_a pitch_b : ℤ) : ℚ :=
  if finger_a = finger_b ∧ pitch_a ≠ pitch_b then m.repetition_weight else 0

/-- `hand_switch_cost`: `hand_switch_weight` when the hands differ. -/
def hand_switch_cost (m : FingeringCostModel) (hand_a hand_b : Hand) : ℚ :=
  if hand_a ≠ hand_b then m.hand_switch_weight else 0

/-- `chord_penalty`: `(chord_size - 5) * chord_penalty_weight` past 5 notes. -/
def chord_penalty (m : FingeringCostModel) (chord_size : ℤ) : ℚ :=
  let excess : ℤ := chord_size - 5
  if excess ≤ 0 then 0 else (excess : ℚ) * m.chord_penalty_weight

/-- `weak_finger_cost`: `weak_finger_weight` for fingers 4 and 5. -/
def weak_finger_cost (m : FingeringCostModel) (finger : Finger) : ℚ :=
  if finger = 4 ∨ finger = 5 then m.weak_finger_weight else 0

/-- `total_cost`: within-hand costs (stretch, crossing, repetition) when the
hand stays the same, `hand_switch_cost` when it changes; `chord_penalty` and
`weak_finger_cost` always. Propagates `stretch_cost`'s `ValueError`. -/
def total_cost (m : FingeringCostModel) (finger_a finger_b : Finger)
    (pitch_a pitch_b : ℤ) (hand_a hand_b : Hand) (chord_size : ℤ) :
    Except String ℚ :=
  let interval : ℤ := |pitch_b - pitch_a|
  if hand_a = hand_b then
    (m.stretch_cost finger_a finger_b interval).map (fun s =>
      s + m.crossing_cost finger_a finger_b pitch_a pitch_b
        + m.repetition_cost finger_a finger_b pitch_a pitch_b
        + m.chord_penalty chord_size
        + m.weak_finger_cost finger_b)
  else
    .ok (m.hand_switch_cost hand_a hand_b
          + m.chord_penalty chord_size
          + m.weak_finger_cost finger_b)

end FingeringCostModel

/-! ## The DP solver (`solver.py`) -/

/-- `HANDS = ["L", "R"]`. -/
def HANDS : List Hand := [Hand.L, Hand.R]

/-- `FINGERS = [1, 2, 3, 4, 5]`. -/
def FINGERS : List Finger := [1, 2, 3, 4, 5]

/-- The `(hand, finger)` enumeration order of the nested
`for hand in HANDS: for finger in FINGERS` loops; this is also the
insertion order of every DP-row dict. -/
def statesList : List DPState :=
  HANDS.flatMap (fun h => FINGERS.map (fun f => (h, f)))

/-- The float comparison `a < b` on possibly-infinite costs, as an
executable Boolean (`costLT_iff` identifies it with the `WithTop ℚ`
order). -/
def costLT (a b : Cost) : Bool :=
  WithTop.recTopCoe
    (WithTop.recTopCoe false (fun _ => true) a)
    (fun qb => WithTop.recTopCoe false (fun qa => decide (qa < qb)) a)
    b

/-- The float sum `c + q` of a possibly-infinite cumulative cost and a
finite transition cost (`inf + q = inf`); `addFin_eq` identifies it with
`WithTop` addition. -/
def addFin (c : Cost) (q : ℚ) : Cost :=
  WithTop.recTopCoe ⊤ (fun a => ((a + q : ℚ) : Cost)) c

/-- The running-best update shared by the forward recurrence and the
terminal selection: replace the best only on a strict `<`. -/
def updateBest {α : Type} (acc : Cost × α) (c : Cost) (x : α) : Cost × α :=
  if costLT c acc.1 then (c, x) else acc

/-- The inner source-state loop of the forward pass for one destination
state `sb`: runs `best_cost`/`best_prev` from `(inf, None)`, skipping
source states absent from the previous row and accumulating
`dp[i-1][sa] + total_cost(...)` candidates. -/
def bestTransition (m : FingeringCostModel) (prevNote curNote : Note)
    (dpPrev : List (DPState × Cost)) (sb : DPState) :
    Except String (Cost × Option DPState) :=
  statesList.foldlM
    (fun acc sa =>
      match dpPrev.lookup sa with
      | none => pure acc
      | some prevCost => do
          let trans ← m.total_cost sa.2 sb.2 prevNote.pitch curNote.pitch
            sa.1 sb.1 curNote.chordSize
          pure (updateBest acc (addFin prevCost trans) (some sa)))
    ((⊤ : Cost), (none : Option DPState))

/-- One step `i` of the forward pass: builds the row `dp[i]` and the
backpointer row `bp[i]`, destination states in enumeration order. -/
def stepDP (m : FingeringCostModel) (prevNote curNote : Note)
    (dpPrev : List (DPState × Cost)) :
    Except String ((List (DPState × Cost)) × (List (DPState × Option DPState))) := do
  let rows ← statesList.mapM (fun sb => do
    let r ← bestTransition m prevNote curNote dpPrev sb
    pure ((sb, r.1), (sb, r.2)))
  pure (rows.map Prod.fst, rows.map Prod.snd)

/-- The row `dp[0]`: for each state, `weak_finger_cost(finger)` plus the
natural-hand bias `0` or `hand_switch_weight * 0.5`. -/
def initRow (m : FingeringCostModel) (firstPitch : ℤ) :
    List (DPState × Cost) :=
  let preferred : Hand := if firstPitch ≤ m.split_pitch then Hand.L else Hand.R
  statesList.map (fun s =>
    (s, ((m.weak_finger_cost s.2 +
          (if s.1 = preferred then 0 else m.hand_switch_weight * (1/2)) : ℚ) :
          Cost)))

/-- The whole forward pass: `dp[0]` then one `stepDP` per consecutive note
pair, returning the last row and the backpointer rows for `i = 1..n-1`. -/
def runForward (m : FingeringCostModel) (n0 : Note) (rest : List Note) :
    Except String ((List (DPState × Cost)) × (List (List (DPState × Option DPState)))) :=
  (List.zip (n0 :: rest) rest).foldlM
    (fun acc pr => do
      let r ← stepDP m pr.1 pr.2 acc.1
      pure (r.1, acc.2 ++ [r.2]))
    (initRow m n0.pitch, [])

/-- The terminal selection: fold over `dp[n-1].items()` in insertion order
from `(inf, ("R", 1))`, keeping `(best_final_cost, best_final_state)`. -/
def selectFinalPair (dpLast : List (DPState × Cost)) : Cost × DPState :=
  dpLast.foldl (fun acc p => updateBest acc p.2 p.1) ((⊤ : Cost), (Hand.R, 1))

/-- Backtracking: from the final state, follow `bp[i]` for `i = n-1..1`.
A `None` backpointer falls back to `("R", 1)` as in the source (the
"should not happen" branch); a missing key (impossible: rows hold all 10
states) is mapped to the same fallback. The Python append-then-reverse is
rendered as cons, so the result is already in forward order. -/
def backtrack (bps : List (List (DPState × Option DPState)))
    (finalState : DPState) : List DPState :=
  bps.reverse.foldl
    (fun path bpi =>
      let cur := path.headD (Hand.R, 1)
      (match (bpi.lookup cur).join with
       | some p => p
       | none => (Hand.R, 1)) :: path)
    [finalState]

/-- The result record for one note: its `start` and `pitch` with the
solved `(hand, finger)`. -/
def mkAnn (note : Note) (s : DPState) : Ann :=
  { onset_time := note.start, pitch := note.pitch, hand := s.1, finger := s.2 }

/-- `solve`: returns `[]` on empty input (before the cost model is built);
otherwise builds the model, runs the DP, selects the best terminal state,
backtracks, and pairs each note with its state. Errors raised by model
construction or by `stretch_cost` propagate. -/
def solve (notes : List Note) (cfg : RawConfig) : Except String (List Ann) :=
  match notes with
  | [] => .ok []
  | n0 :: rest => do
      let m ← mkModel cfg
      let fr ← runForward m n0 rest
      let finalState := (selectFinalPair fr.1).2
      let path := backtrack fr.2 finalState
      pure (List.zipWith mkAnn (n0 :: rest) path)

/-- `best_final_cost` of the terminal selection, as a value: the minimum
cumulative DP cost the solver finds. -/
def optimalCost (m : FingeringCostModel) (n0 : Note) (rest : List Note) :
    Except String Cost :=
  (runForward m n0 rest).map (fun fr => (selectFinalPair fr.1).1)

/-! ## Valid configurations

A span table is valid when every unordered pair of distinct fingers from
1..5 has an entry — the invariant §3 of the spec states for `CostConfig`. -/

/-- Full finger-pair coverage of the span table. -/
def validSpansL (m : FingeringCostModel) : Prop :=
  ∀ a ∈ FINGERS, ∀ b ∈ FINGERS, a < b →
    (m.max_comfortable_span.lookup (pairKey a b)).isSome = true

instance (m : FingeringCostModel) : Decidable (validSpansL m) := by
  unfold validSpansL; infer_instance

/-! ## Pure mirror of the solver computation

Under a valid span table, `stretch_cost` (hence `total_cost`, hence the
whole DP) never raises; the pure functions below compute the values the
`Except`-level functions return in that case. -/

/-- The value `stretch_cost` returns when the pair lookup succeeds (the
`none` branch is unreachable under `validSpansL`). -/
def FingeringCostModel.stretchP (m : FingeringCostModel)
    (finger_a finger_b : Finger) (interval : ℤ) : ℚ :=
  if finger_a = finger_b then 0
  else
    match m.max_comfortable_span.lookup (pairKey (min finger_a finger_b) (max finger_a finger_b)) with
    | none => 0
    | some max_span =>
        if interval - max_span ≤ 0 then 0
        else ((interval - max_span : ℤ) : ℚ) * m.stretch_weight

/-- The value `total_cost` returns when no error is raised. -/
def FingeringCostModel.totalP (m : FingeringCostModel)
    (finger_a finger_b : Finger) (pitch_a pitch_b : ℤ)
    (hand_a hand_b : Hand) (chord_size : ℤ) : ℚ :=
  if hand_a = hand_b then
    m.stretchP finger_a finger_b |pitch_b - pitch_a|
      + m.crossing_cost finger_a finger_b pitch_a pitch_b
      + m.repetition_cost finger_a finger_b pitch_a pitch_b
      + m.chord_penalty chord_size
      + m.weak_finger_cost finger_b
  else
    m.hand_switch_cost hand_a hand_b
      + m.chord_penalty chord_size
      + m.weak_finger_cost finger_b

/-- Pure mirror of `bestTransition`. -/
def bestTransitionP (m : FingeringCostModel) (prevNote curNote : Note)
    (dpPrev : List (DPState × Cost)) (sb : DPState) : Cost × Option DPState :=
  statesList.foldl
    (fun acc sa =>
      match dpPrev.lookup sa with
      | none => acc
      | some prevCost =>
          updateBest acc
            (addFin prevCost (m.totalP sa.2 sb.2 prevNote.pitch curNote.pitch
              sa.1 sb.1 curNote.chordSize)) (some sa))
    ((⊤ : Cost), (none : Option DPState))

/-- Pure mirror of `stepDP`. -/
def stepDPP (m : FingeringCostModel) (prevNote curNote : Note)
    (dpPrev : List (DPState × Cost)) :
    (List (DPState × Cost)) × (List (DPState × Option DPState)) :=
  (statesList.map (fun sb => (sb, (bestTransitionP m prevNote curNote dpPrev sb).1)),
   statesList.map (fun sb => (sb, (bestTransitionP m prevNote curNote dpPrev sb).2)))

/-- Pure mirror of `runForward`. -/
def runForwardP (m : FingeringCostModel) (n0 : Note) (rest : List Note) :
    (List (DPState × Cost)) × (List (List (DPState × Option DPState))) :=
  (List.zip (n0 :: rest) rest).foldl
    (fun acc pr =>
      let r := stepDPP m pr.1 pr.2 acc.1
      (r.1, acc.2 ++ [r.2]))
    (initRow m n0.pitch, [])

/-- Pure mirror of `solve` on a non-empty input with a constructed model. -/
def solveP (m : FingeringCostModel) (n0 : Note) (rest : List Note) : List Ann :=
  let fr := runForwardP m n0 rest
  List.zipWith mkAnn (n0 :: rest) (backtrack fr.2 (selectFinalPair fr.1).2)

/-- Pure mirror of `optimalCost`. -/
def optimalCostP (m : FingeringCostModel) (n0 : Note) (rest : List Note) : Cost :=
  (selectFinalPair (runForwardP m n0 rest).1).1

/-! ## Bridge lemmas for the executable cost operations -/

theorem costLT_iff (a b : Cost) : costLT a b = true ↔ a < b := by
  induction b using WithTop.recTopCoe <;> induction a using WithTop.recTopCoe <;>
    simp [costLT, WithTop.coe_lt_top, WithTop.coe_lt_coe]

theorem costLT_false_iff (a b : Cost) : costLT a b = false ↔ b ≤ a := by
  rw [← Bool.not_eq_true, costLT_iff, not_lt]

theorem addFin_eq (c : Cost) (q : ℚ) : addFin c q = c + (q : Cost) := by
  induction c using WithTop.recTopCoe
  · simp [addFin]
  · simp [addFin, ← WithTop.coe_add]

theorem updateBest_eq {α : Type} (acc : Cost × α) (c : Cost) (x : α) :
    updateBest acc c x = (min acc.1 c, if costLT c acc.1 then x else acc.2) := by
  unfold updateBest
  rcases h : costLT c acc.1 with _ | _
  · rw [costLT_false_iff] at h
    simp [min_eq_left h]
  · rw [costLT_iff] at h
    simp [min_eq_right h.le]

/-! ## Generic lemmas about `Except`-valued folds -/

theorem foldlM_ok {α β : Type} (f : β → α → Except String β) (g : β → α → β)
    (l : List α) :
    (∀ acc, ∀ x ∈ l, f acc x = .ok (g acc x)) →
    ∀ init, l.foldlM f init = .ok (l.foldl g init) := by
  induction l with
  | nil => intro _ init; rfl
  | cons x xs ih =>
      intro h init
      rw [List.foldlM_cons, h init x (List.mem_cons_self x xs)]
      show xs.foldlM f (g init x) = _
      rw [List.foldl_cons]
      exact ih (fun acc y hy => h acc y (List.mem_cons_of_mem x hy)) (g init x)

theorem mapM_ok {α β : Type} (f : α → Except String β) (g : α → β)
    (l : List α) :
    (∀ x ∈ l, f x = .ok (g x)) → l.mapM f = .ok (l.map g) := by
  induction l with
  | nil => intro _; rfl
  | cons x xs ih =>
      intro h
      rw [List.mapM_cons, h x (List.mem_cons_self x xs)]
      show (xs.mapM f >>= fun ys => pure (g x :: ys)) = _
      rw [ih (fun y hy => h y (List.mem_cons_of_mem x hy))]
      rfl

/-! ## Refinement: under a valid span table the solver never raises -/

theorem statesList_finger_mem : ∀ s ∈ statesList, s.2 ∈ FINGERS := by decide

theorem stretch_cost_ok (m : FingeringCostModel) (hv : validSpansL m)
    (fa fb : Finger) (hfa : fa ∈ FINGERS) (hfb : fb ∈ FINGERS) (iv : ℤ) :
    m.stretch_cost fa fb iv = .ok (m.stretchP fa fb iv) := by
  unfold FingeringCostModel.stretch_cost FingeringCostModel.stretchP
  by_cases hfe : fa = fb
  · simp [hfe]
  · have hmin : min fa fb ∈ FINGERS := by
      rcases min_choice fa fb with h | h <;> rw [h] <;> assumption
    have hmax : max fa fb ∈ FINGERS := by
      rcases max_choice fa fb with h | h <;> rw [h] <;> assumption
    have hlt : min fa fb < max fa fb := min_lt_max.mpr hfe
    rcases Option.isSome_iff_exists.mp (hv _ hmin _ hmax hlt) with ⟨v, hvv⟩
    simp only [if_neg hfe, hvv]
    split <;> rfl

theorem total_cost_ok (m : FingeringCostModel) (hv : validSpansL m)
    (fa fb : Finger) (hfa : fa ∈ FINGERS) (hfb : fb ∈ FINGERS)
    (pa pb : ℤ) (hA hB : Hand) (cs : ℤ) :
    m.total_cost fa fb pa pb hA hB cs = .ok (m.totalP fa fb pa pb hA hB cs) := by
  unfold FingeringCostModel.total_cost FingeringCostModel.totalP
  by_cases hh : hA = hB
  · simp [hh, stretch_cost_ok m hv fa fb hfa hfb, Except.map]
  · simp [hh]

theorem bestTransition_ok (m : FingeringCostModel) (hv : validSpansL m)
    (pn cn : Note) (dpPrev : List (DPState × Cost)) (sb : DPState)
    (hsb : sb ∈ statesList) :
    bestTransition m pn cn dpPrev sb = .ok (bestTransitionP m pn cn dpPrev sb) := by
  unfold bestTransition bestTransitionP
  apply foldlM_ok
  intro acc sa hsa
  cases hl : dpPrev.lookup sa with
  | none => simp only [hl]; rfl
  | some prevCost =>
      simp only [hl]
      rw [total_cost_ok m hv _ _ (statesList_finger_mem sa hsa)
        (statesList_finger_mem sb hsb)]
      rfl

theorem stepDP_ok (m : FingeringCostModel) (hv : validSpansL m)
    (pn cn : Note) (dpPrev : List (DPState × Cost)) :
    stepDP m pn cn dpPrev = .ok (stepDPP m pn cn dpPrev) := by
  unfold stepDP stepDPP
  rw [mapM_ok _
    (fun sb => ((sb, (bestTransitionP m pn cn dpPrev sb).1),
                (sb, (bestTransitionP m pn cn dpPrev sb).2)))
    statesList
    (fun sb hsb => by rw [bestTransition_ok m hv pn cn dpPrev sb hsb]; rfl)]
  show Except.ok _ = _
  simp [List.map_map, Function.comp]

theorem runForward_ok (m : FingeringCostModel) (hv : validSpansL m)
    (n0 : Note) (rest : List Note) :
    runForward m n0 rest = .ok (runForwardP m n0 rest) := by
  unfold runForward runForwardP
  apply foldlM_ok
  intro acc pr _
  rw [stepDP_ok m hv pr.1 pr.2 acc.1]
  rfl

theorem solve_ok (cfg : RawConfig) (m : FingeringCostModel)
    (hm : mkModel cfg = .ok m) (hv : validSpansL m) (n0 : Note) (rest : List Note) :
    solve (n0 :: rest) cfg = .ok (solveP m n0 rest) := by
  show (mkModel cfg >>= fun m => _) = _
  rw [hm]
  show (runForward m n0 rest >>= fun fr => _) = _
  rw [runForward_ok m hv n0 rest]
  rfl

theorem optimalCost_ok (m : FingeringCostModel) (hv : validSpansL m)
    (n0 : Note) (rest : List Note) :
    optimalCost m n0 rest = .ok (optimalCostP m n0 rest) := by
  unfold optimalCost optimalCostP
  rw [runForward_ok m hv n0 rest]
  rfl

/-! ## The strict-`<` running-best fold -/

theorem foldl_updateBest_fst {α γ : Type} (cost : γ → Cost) (val : γ → α) :
    ∀ (l : List γ) (b : Cost) (s : α),
      (l.foldl (fun acc t => updateBest acc (cost t) (val t)) (b, s)).1
        = l.foldl (fun c t => min c (cost t)) b := by
  intro l
  induction l with
  | nil => intro b s; rfl
  | cons x xs ih =>
      intro b s
      rw [List.foldl_cons, List.foldl_cons, updateBest_eq]
      exact ih (min b (cost x)) _

/-- The running best of a strict-`<` fold is the *first* element achieving
the minimum: either no element beats the initial best, or the fold returns
the first element whose cost is strictly below everything before it and at
most everything after it. -/
theorem foldl_updateBest_firstMin {α γ : Type} (cost : γ → Cost) (val : γ → α) :
    ∀ (l : List γ) (b : Cost) (s : α),
      (l.foldl (fun acc t => updateBest acc (cost t) (val t)) (b, s) = (b, s)
        ∧ ∀ q ∈ l, ¬ cost q < b)
      ∨ (∃ l1 p l2, l = l1 ++ p :: l2
          ∧ l.foldl (fun acc t => updateBest acc (cost t) (val t)) (b, s)
              = (cost p, val p)
          ∧ cost p < b ∧ (∀ q ∈ l1, cost p < cost q) ∧ (∀ q ∈ l2, cost p ≤ cost q)) := by
  intro l
  induction l with
  | nil => intro b s; exact Or.inl ⟨rfl, by simp⟩
  | cons x xs ih =>
      intro b s
      rw [List.foldl_cons, updateBest_eq]
      by_cases hxb : cost x < b
      · rw [if_pos ((costLT_iff _ _).mpr hxb), min_eq_right hxb.le]
        rcases ih (cost x) (val x) with ⟨hfold, hall⟩ | ⟨t1, p, t2, hsplit, hfold, hlt, hbefore, hafter⟩
        · refine Or.inr ⟨[], x, xs, by simp, hfold, hxb, by simp, ?_⟩
          intro q hq
          exact not_lt.mp (hall q hq)
        · refine Or.inr ⟨x :: t1, p, t2, by rw [hsplit]; rfl, hfold,
            hlt.trans hxb, ?_, hafter⟩
          intro q hq
          rcases List.mem_cons.mp hq with rfl | hq
          · exact hlt
          · exact hbefore q hq
      · rw [if_neg (by rw [costLT_iff]; exact hxb),
          min_eq_left (not_lt.mp hxb)]
        rcases ih b s with ⟨hfold, hall⟩ | ⟨t1, p, t2, hsplit, hfold, hlt, hbefore, hafter⟩
        · refine Or.inl ⟨hfold, ?_⟩
          intro q hq
          rcases List.mem_cons.mp hq with rfl | hq
          · exact hxb
          · exact hall q hq
        · refine Or.inr ⟨x :: t1, p, t2, by rw [hsplit]; rfl, hfold, hlt, ?_, hafter⟩
          intro q hq
          rcases List.mem_cons.mp hq with rfl | hq
          · exact lt_of_lt_of_le hlt (not_lt.mp hxb)
          · exact hbefore q hq

theorem selectFinalPair_fst (l : List (DPState × Cost)) :
    (selectFinalPair l).1 = l.foldl (fun c p => min c p.2) ⊤ :=
  foldl_updateBest_fst Prod.snd Prod.fst l ⊤ (Hand.R, 1)

theorem foldl_min_mono {γ : Type} (cA cB : γ → Cost) :
    ∀ (l : List γ) (b b' : Cost), b ≤ b' → (∀ t ∈ l, cA t ≤ cB t) →
      l.foldl (fun c t => min c (cA t)) b ≤ l.foldl (fun c t => min c (cB t)) b' := by
  intro l
  induction l with
  | nil => intro b b' hb _; exact hb
  | cons x xs ih =>
      intro b b' hb h
      rw [List.foldl_cons, List.foldl_cons]
      exact ih _ _ (min_le_min hb (h x (List.mem_cons_self x xs)))
        (fun t ht => h t (List.mem_cons_of_mem x ht))

/-! ## DP rows as tables over the fixed state enumeration -/

/-- A DP-row dict holding `g s` for each state, in insertion order. -/
def rowOf (g : DPState → Cost) : List (DPState × Cost) :=
  statesList.map (fun s => (s, g s))

theorem statesList_eq :
    statesList = [(Hand.L, 1), (Hand.L, 2), (Hand.L, 3), (Hand.L, 4), (Hand.L, 5),
                  (Hand.R, 1), (Hand.R, 2), (Hand.R, 3), (Hand.R, 4), (Hand.R, 5)] := rfl

theorem lookup_rowOf (g : DPState → Cost) (s : DPState) (hs : s ∈ statesList) :
    (rowOf g).lookup s = some (g s) := by
  rw [statesList_eq] at hs
  fin_cases hs <;> rfl

/-- `dp[0]` as a function of the state. -/
def initFun (m : FingeringCostModel) (firstPitch : ℤ) (s : DPState) : Cost :=
  ((m.weak_finger_cost s.2 +
    (if s.1 = (if firstPitch ≤ m.split_pitch then Hand.L else Hand.R) then 0
     else m.hand_switch_weight * (1/2)) : ℚ) : Cost)

theorem initRow_eq_rowOf (m : FingeringCostModel) (p : ℤ) :
    initRow m p = rowOf (initFun m p) := rfl

/-- The cumulative-cost function the forward pass computes after folding a
list of consecutive note pairs, starting from row function `g`. -/
def forwardRowFun (m : FingeringCostModel) (l : List (Note × Note))
    (g : DPState → Cost) : DPState → Cost :=
  l.foldl (fun g pr => fun sb => (bestTransitionP m pr.1 pr.2 (rowOf g) sb).1) g

theorem runForwardP_fst_aux (m : FingeringCostModel) :
    ∀ (l : List (Note × Note)) (g : DPState → Cost)
      (acc : List (List (DPState × Option DPState))),
      (l.foldl (fun acc pr =>
          let r := stepDPP m pr.1 pr.2 acc.1
          (r.1, acc.2 ++ [r.2])) (rowOf g, acc)).1
        = rowOf (forwardRowFun m l g) := by
  intro l
  induction l with
  | nil => intro g acc; rfl
  | cons pr prs ih =>
      intro g acc
      rw [List.foldl_cons]
      exact ih (fun sb => (bestTransitionP m pr.1 pr.2 (rowOf g) sb).1) _

theorem runForwardP_fst (m : FingeringCostModel) (n0 : Note) (rest : List Note) :
    (runForwardP m n0 rest).1
      = rowOf (forwardRowFun m (List.zip (n0 :: rest) rest) (initFun m n0.pitch)) := by
  unfold runForwardP
  rw [initRow_eq_rowOf]
  exact runForwardP_fst_aux m _ _ _

theorem bestTransitionP_rowOf_fst (m : FingeringCostModel) (pn cn : Note)
    (g : DPState → Cost) (sb : DPState) :
    (bestTransitionP m pn cn (rowOf g) sb).1
      = statesList.foldl (fun c sa =>
          min c (addFin (g sa)
            (m.totalP sa.2 sb.2 pn.pitch cn.pitch sa.1 sb.1 cn.chordSize))) ⊤ := by
  unfold bestTransitionP
  rw [show (List.foldl
      (fun acc sa =>
        match (rowOf g).lookup sa with
        | none => acc
        | some prevCost =>
            updateBest acc
              (addFin prevCost (m.totalP sa.2 sb.2 pn.pitch cn.pitch sa.1 sb.1
                cn.chordSize)) (some sa))
      ((⊤ : Cost), (none : Option DPState)) statesList)
    = List.foldl
      (fun acc sa =>
        updateBest acc
          (addFin (g sa) (m.totalP sa.2 sb.2 pn.pitch cn.pitch sa.1 sb.1
            cn.chordSize)) (some sa))
      ((⊤ : Cost), (none : Option DPState)) statesList from
    List.foldl_ext _ _ _ (fun acc sa hsa => by rw [lookup_rowOf g sa hsa])]
  exact foldl_updateBest_fst
    (fun sa => addFin (g sa) (m.totalP sa.2 sb.2 pn.pitch cn.pitch sa.1 sb.1
      cn.chordSize))
    (fun sa => some sa) statesList ⊤ none

theorem selectFinalPair_rowOf_fst (g : DPState → Cost) :
    (selectFinalPair (rowOf g)).1 = statesList.foldl (fun c s => min c (g s)) ⊤ := by
  rw [selectFinalPair_fst]
  unfold rowOf
  rw [List.foldl_map]

/-! ## Monotonicity of the optimal cost in each weight -/

/-- Pointwise domination of one cost model by another: identical span table
and split pitch, each of the six weights at most the other's. -/
def modLe (m m' : FingeringCostModel) : Prop :=
  m.max_comfortable_span = m'.max_comfortable_span ∧
  m.split_pitch = m'.split_pitch ∧
  m.stretch_weight ≤ m'.stretch_weight ∧
  m.crossing_weight ≤ m'.crossing_weight ∧
  m.repetition_weight ≤ m'.repetition_weight ∧
  m.hand_switch_weight ≤ m'.hand_switch_weight ∧
  m.chord_penalty_weight ≤ m'.chord_penalty_weight ∧
  m.weak_finger_weight ≤ m'.weak_finger_weight

theorem stretchP_mono {m m' : FingeringCostModel} (h : modLe m m')
    (fa fb : Finger) (iv : ℤ) : m.stretchP fa fb iv ≤ m'.stretchP fa fb iv := by
  unfold FingeringCostModel.stretchP
  rw [← h.1]
  by_cases hfe : fa = fb
  · simp [hfe]
  · simp only [if_neg hfe]
    cases m.max_comfortable_span.lookup (pairKey (min fa fb) (max fa fb)) with
    | none => exact le_refl _
    | some v =>
        by_cases hex : iv - v ≤ 0
        · simp [hex]
        · simp only [if_neg hex]
          have : (0 : ℚ) ≤ ((iv - v : ℤ) : ℚ) := by
            exact_mod_cast (not_le.mp hex).le
          exact mul_le_mul_of_nonneg_left h.2.2.1 this

theorem crossing_mono {m m' : FingeringCostModel} (h : modLe m m')
    (fa fb : Finger) (pa pb : ℤ) :
    m.crossing_cost fa fb pa pb ≤ m'.crossing_cost fa fb pa pb := by
  unfold FingeringCostModel.crossing_cost
  dsimp only
  split
  · exact le_refl _
  · split
    · exact h.2.2.2.1
    · exact le_refl _

theorem repetition_mono {m m' : FingeringCostModel} (h : modLe m m')
    (fa fb : Finger) (pa pb : ℤ) :
    m.repetition_cost fa fb pa pb ≤ m'.repetition_cost fa fb pa pb := by
  unfold FingeringCostModel.repetition_cost
  split
  · exact h.2.2.2.2.1
  · exact le_refl _

theorem hand_switch_mono {m m' : FingeringCostModel} (h : modLe m m')
    (hA hB : Hand) : m.hand_switch_cost hA hB ≤ m'.hand_switch_cost hA hB := by
  unfold FingeringCostModel.hand_switch_cost
  split
  · exact h.2.2.2.2.2.1
  · exact le_refl _

theorem chord_mono {m m' : FingeringCostModel} (h : modLe m m') (cs : ℤ) :
    m.chord_penalty cs ≤ m'.chord_penalty cs := by
  unfold FingeringCostModel.chord_penalty
  by_cases hex : cs - 5 ≤ 0
  · simp [hex]
  · simp only [if_neg hex]
    have : (0 : ℚ) ≤ ((cs - 5 : ℤ) : ℚ) := by exact_mod_cast (not_le.mp hex).le
    exact mul_le_mul_of_nonneg_left h.2.2.2.2.2.2.1 this

theorem weak_mono {m m' : FingeringCostModel} (h : modLe m m') (f : Finger) :
    m.weak_finger_cost f ≤ m'.weak_finger_cost f := by
  unfold FingeringCostModel.weak_finger_cost
  split
  · exact h.2.2.2.2.2.2.2
  · exact le_refl _

theorem totalP_mono {m m' : FingeringCostModel} (h : modLe m m')
    (fa fb : Finger) (pa pb : ℤ) (hA hB : Hand) (cs : ℤ) :
    m.totalP fa fb pa pb hA hB cs ≤ m'.totalP fa fb pa pb hA hB cs := by
  unfold FingeringCostModel.totalP
  split
  · exact add_le_add (add_le_add (add_le_add (add_le_add
      (stretchP_mono h fa fb _) (crossing_mono h fa fb pa pb))
      (repetition_mono h fa fb pa pb)) (chord_mono h cs)) (weak_mono h fb)
  · exact add_le_add (add_le_add (hand_switch_mono h hA hB) (chord_mono h cs))
      (weak_mono h fb)

theorem initFun_mono {m m' : FingeringCostModel} (h : modLe m m')
    (p : ℤ) (s : DPState) : initFun m p s ≤ initFun m' p s := by
  unfold initFun
  rw [WithTop.coe_le_coe, ← h.2.1]
  apply add_le_add (weak_mono h s.2)
  by_cases hs : s.1 = (if p ≤ m.split_pitch then Hand.L else Hand.R)
  · rw [if_pos hs, if_pos hs]
  · rw [if_neg hs, if_neg hs]
    exact mul_le_mul_of_nonneg_right h.2.2.2.2.2.1 (by norm_num)

theorem addFin_mono {c c' : Cost} {q q' : ℚ} (hc : c ≤ c') (hq : q ≤ q') :
    addFin c q ≤ addFin c' q' := by
  rw [addFin_eq, addFin_eq]
  exact add_le_add hc (WithTop.coe_le_coe.mpr hq)

theorem forwardRowFun_mono {m m' : FingeringCostModel} (h : modLe m m') :
    ∀ (l : List (Note × Note)) (gA gB : DPState → Cost),
      (∀ s, gA s ≤ gB s) →
      ∀ s, forwardRowFun m l gA s ≤ forwardRowFun m' l gB s := by
  intro l
  induction l with
  | nil => intro gA gB hg s; exact hg s
  | cons pr prs ih =>
      intro gA gB hg s
      unfold forwardRowFun
      rw [List.foldl_cons, List.foldl_cons]
      refine ih _ _ (fun sb => ?_) s
      rw [bestTransitionP_rowOf_fst, bestTransitionP_rowOf_fst]
      exact foldl_min_mono _ _ statesList ⊤ ⊤ (le_refl _)
        (fun sa _ => addFin_mono (hg sa) (totalP_mono h _ _ _ _ _ _ _))

theorem optimalCostP_mono {m m' : FingeringCostModel} (h : modLe m m')
    (n0 : Note) (rest : List Note) :
    optimalCostP m n0 rest ≤ optimalCostP m' n0 rest := by
  unfold optimalCostP
  rw [runForwardP_fst, runForwardP_fst, selectFinalPair_rowOf_fst,
    selectFinalPair_rowOf_fst]
  exact foldl_min_mono _ _ statesList ⊤ ⊤ (le_refl _)
    (fun s _ => forwardRowFun_mono h _ _ _ (initFun_mono h n0.pitch) s)

/-! ## Shape of the solver output: lengths and positional fields -/

theorem forwardP_snd_length (m : FingeringCostModel) :
    ∀ (l : List (Note × Note)) (d : List (DPState × Cost))
      (acc : List (List (DPState × Option DPState))),
      ((l.foldl (fun acc pr =>
          let r := stepDPP m pr.1 pr.2 acc.1
          (r.1, acc.2 ++ [r.2])) (d, acc)).2).length = acc.length + l.length := by
  intro l
  induction l with
  | nil => intro d acc; rfl
  | cons pr prs ih =>
      intro d acc
      rw [List.foldl_cons]
      rw [ih]
      simp [Nat.add_assoc, Nat.add_comm 1]

theorem runForwardP_snd_length (m : FingeringCostModel) (n0 : Note)
    (rest : List Note) : ((runForwardP m n0 rest).2).length = rest.length := by
  unfold runForwardP
  rw [forwardP_snd_length]
  simp [List.length_zip]

theorem backtrack_length :
    ∀ (bps : List (List (DPState × Option DPState))) (s : DPState),
      (backtrack bps s).length = bps.length + 1 := by
  have aux : ∀ (l : List (List (DPState × Option DPState))) (path : List DPState),
      (l.foldl (fun path bpi =>
        (match (bpi.lookup (path.headD (Hand.R, 1))).join with
         | some p => p
         | none => (Hand.R, 1)) :: path) path).length = path.length + l.length := by
    intro l
    induction l with
    | nil => intro path; rfl
    | cons x xs ih =>
        intro path
        rw [List.foldl_cons, ih]
        simp [Nat.add_comm 1, Nat.add_assoc]
  intro bps s
  unfold backtrack
  rw [aux]
  simp [Nat.add_comm]

theorem solveP_length (m : FingeringCostModel) (n0 : Note) (rest : List Note) :
    (solveP m n0 rest).length = rest.length + 1 := by
  unfold solveP
  rw [List.length_zipWith, backtrack_length, runForwardP_snd_length]
  simp

theorem solveP_getElem (m : FingeringCostModel) (n0 : Note) (rest : List Note)
    (i : ℕ) (hi : i < (solveP m n0 rest).length)
    (hj : i < (n0 :: rest).length) :
    (solveP m n0 rest)[i].pitch = (n0 :: rest)[i].pitch ∧
    (solveP m n0 rest)[i].onset_time = (n0 :: rest)[i].start := by
  unfold solveP
  constructor <;> rw [List.getElem_zipWith] <;> rfl

/-! ## Missing `chord_size` keys: the solver defaults them to 1 -/

/-- Writes the chord size the solver would use back into the note, making
the `chord_size` key present. -/
def normChord (n : Note) : Note := ⟨n.pitch, n.start, some n.chordSize⟩

theorem runForward_norm (m : FingeringCostModel) (n0 : Note) (rest : List Note) :
    runForward m (normChord n0) (rest.map normChord) = runForward m n0 rest := by
  unfold runForward
  rw [show normChord n0 :: rest.map normChord = (n0 :: rest).map normChord from rfl,
    List.zip_map, List.foldlM_map]
  rfl

theorem solve_norm (notes : List Note) (cfg : RawConfig) :
    solve (notes.map normChord) cfg = solve notes cfg := by
  cases notes with
  | nil => rfl
  | cons n0 rest =>
      show (mkModel cfg >>= _) = (mkModel cfg >>= _)
      cases hm : mkModel cfg with
      | error e => rfl
      | ok m =>
          show (runForward m (normChord n0) (rest.map normChord) >>= _)
            = (runForward m n0 rest >>= _)
          rw [runForward_norm]
          cases hr : runForward m n0 rest with
          | error e => rfl
          | ok fr =>
              show Except.ok (List.zipWith mkAnn (normChord n0 :: rest.map normChord) _)
                = Except.ok (List.zipWith mkAnn (n0 :: rest) _)
              rw [show normChord n0 :: rest.map normChord = (n0 :: rest).map normChord from rfl,
                List.zipWith_map_left]
              rfl

/-! ## Selecting one of the six weights -/

/-- One of the six scalar weights of the cost configuration. -/
inductive WeightKind : Type
  | stretch
  | crossing
  | repetition
  | handSwitch
  | chordPenalty
  | weakFinger
deriving DecidableEq, Repr

/-- Reads the selected weight. -/
def getWeight (m : FingeringCostModel) : WeightKind → ℚ
  | .stretch => m.stretch_weight
  | .crossing => m.crossing_weight
  | .repetition => m.repetition_weight
  | .handSwitch => m.hand_switch_weight
  | .chordPenalty => m.chord_penalty_weight
  | .weakFinger => m.weak_finger_weight

/-- Replaces the selected weight, holding every other parameter fixed. -/
def setWeight (m : FingeringCostModel) : WeightKind → ℚ → FingeringCostModel
  | .stretch, v => { m with stretch_weight := v }
  | .crossing, v => { m with crossing_weight := v }
  | .repetition, v => { m with repetition_weight := v }
  | .handSwitch, v => { m with hand_switch_weight := v }
  | .chordPenalty, v => { m with chord_penalty_weight := v }
  | .weakFinger, v => { m with weak_finger_weight := v }

theorem modLe_setWeight (m : FingeringCostModel) (k : WeightKind) (v : ℚ)
    (h : getWeight m k ≤ v) : modLe m (setWeight m k v) := by
  cases k <;>
    exact ⟨rfl, rfl, by first | exact h | exact le_refl _,
      by first | exact h | exact le_refl _, by first | exact h | exact le_refl _,
      by first | exact h | exact le_refl _, by first | exact h | exact le_refl _,
      by first | exact h | exact le_refl _⟩

theorem validSpans_setWeight (m : FingeringCostModel) (k : WeightKind) (v : ℚ)
    (hv : validSpansL m) : validSpansL (setWeight m k v) := by
  cases k <;> exact hv

/-- Whether a Python call returned normally (`.ok`) or raised (`.error`). -/
def isOkE {α : Type} : Except String α → Bool
  | .ok _ => true
  | .error _ => false

/-- `solve`'s return value for any input, valid configuration assumed. -/
def solveTotal (m : FingeringCostModel) : List Note → List Ann
  | [] => []
  | n0 :: rest => solveP m n0 rest

/-! ## Concrete configurations for evaluating the embedding -/

/-- A span table covering all 10 unordered pairs of distinct fingers. -/
def fullSpans : List (String × ℤ) :=
  [("1_2", 5), ("1_3", 7), ("1_4", 9), ("1_5", 10),
   ("2_3", 2), ("2_4", 4), ("2_5", 6),
   ("3_4", 2), ("3_5", 4), ("4_5", 2)]

/-- A fully valid cost model. -/
def mEx : FingeringCostModel :=
  { max_comfortable_span := fullSpans
    stretch_weight := 1, crossing_weight := 2, repetition_weight := 3
    hand_switch_weight := 4, chord_penalty_weight := 5, weak_finger_weight := 1
    split_pitch := 60 }

/-- The configuration mapping that constructs `mEx`. -/
def cfgEx : RawConfig :=
  { max_comfortable_span := some fullSpans
    stretch_weight := some 1, crossing_weight := some 2, repetition_weight := some 3
    hand_switch_weight := some 4, chord_penalty_weight := some 5,
    weak_finger_weight := some 1, split_pitch := some 60 }

/-- A configuration with every required key present but an *empty* span
table: no finger pair has an entry. -/
def cfgNoPair : RawConfig :=
  { max_comfortable_span := some []
    stretch_weight := some 1, crossing_weight := some 2, repetition_weight := some 3
    hand_switch_weight := some 4, chord_penalty_weight := some 5,
    weak_finger_weight := some 1, split_pitch := some 60 }

/-- The model `cfgNoPair` constructs. -/
def mNoPair : FingeringCostModel :=
  { max_comfortable_span := []
    stretch_weight := 1, crossing_weight := 2, repetition_weight := 3
    hand_switch_weight := 4, chord_penalty_weight := 5, weak_finger_weight := 1
    split_pitch := 60 }

/-- A configuration lacking exactly the `hand_switch_weight` key. -/
def cfgNoHSW : RawConfig :=
  { max_comfortable_span := some fullSpans
    stretch_weight := some 1, crossing_weight := some 2, repetition_weight := some 3
    hand_switch_weight := none, chord_penalty_weight := some 5,
    weak_finger_weight := some 1, split_pitch := some 60 }

/-- A three-note ascending line (C4, E4, G4). -/
def notesEx : List Note :=
  [⟨60, 0, some 1⟩, ⟨64, 1/2, some 1⟩, ⟨67, 1, some 1⟩]

/-! ## The claims -/

/-- C1 (counterexample): constructing a model from a configuration whose
span table lacks every finger pair *succeeds* — no `ConfigError` is raised
at construction time, contradicting the claim that full finger-pair
coverage is validated eagerly; the missing-pair error surfaces only when
`stretch_cost` is first called on distinct fingers. -/
theorem construction_accepts_missing_pairs :
    mkModel cfgNoPair = .ok mNoPair
    ∧ mNoPair.stretch_cost 1 2 12 = .error (pairKey 1 2)
    ∧ pairKey 1 2 = "1_2" := by
  refine ⟨rfl, rfl, rfl⟩

/-- C1 (amended): missing span-table entries are reported lazily by
`stretch_cost`, which raises a `ValueError` naming the pair key when the
two fingers differ and their unordered pair is absent; for a model whose
span table covers all pairs of distinct fingers 1–5, `stretch_cost` never
raises; and construction checks exactly the eight required top-level keys,
not the span table's coverage. -/
theorem stretch_missing_pair_lazy (m : FingeringCostModel)
    (fa fb : Finger) (iv : ℤ) :
    (validSpansL m → fa ∈ FINGERS → fb ∈ FINGERS →
        m.stretch_cost fa fb iv = .ok (m.stretchP fa fb iv))
    ∧ (fa ≠ fb →
        m.max_comfortable_span.lookup (pairKey (min fa fb) (max fa fb)) = none →
        m.stretch_cost fa fb iv = .error (pairKey (min fa fb) (max fa fb)))
    ∧ (∀ cfg : RawConfig, isOkE (mkModel cfg) = true ↔ findMissingKey cfg = none) := by
  refine ⟨fun hv ha hb => stretch_cost_ok m hv fa fb ha hb iv, fun hne hl => ?_, fun cfg => ?_⟩
  · unfold FingeringCostModel.stretch_cost
    simp only [if_neg hne, hl]
  · unfold mkModel
    cases findMissingKey cfg with
    | none => simp [isOkE]
    | some k => simp [isOkE]

theorem stretch_missing_pair_lazy_witness :
    mEx.stretch_cost 2 4 9 = .ok (mEx.stretchP 2 4 9) :=
  (stretch_missing_pair_lazy mEx 2 4 9).1 (by decide) (by decide) (by decide)

/-- C2: `total_cost` sums stretch, crossing and repetition when the hand is
unchanged, and exactly `hand_switch_cost` when it changes; `chord_penalty`
and `weak_finger_cost` are added in both cases. -/
theorem total_cost_decomposition (m : FingeringCostModel)
    (fa fb : Finger) (pa pb : ℤ) (hA hB : Hand) (cs : ℤ) :
    (hA = hB →
        m.total_cost fa fb pa pb hA hB cs
          = (m.stretch_cost fa fb |pb - pa|).map (fun s =>
              s + m.crossing_cost fa fb pa pb
                + m.repetition_cost fa fb pa pb
                + m.chord_penalty cs
                + m.weak_finger_cost fb))
    ∧ (hA ≠ hB →
        m.total_cost fa fb pa pb hA hB cs
          = .ok (m.hand_switch_cost hA hB + m.chord_penalty cs
              + m.weak_finger_cost fb)) := by
  unfold FingeringCostModel.total_cost
  constructor
  · intro h
    rw [if_pos h]
  · intro h
    rw [if_neg h]

theorem total_cost_decomposition_witness :
    mEx.total_cost 1 2 60 64 Hand.L Hand.L 1
      = (mEx.stretch_cost 1 2 |(64 : ℤ) - 60|).map (fun s =>
          s + mEx.crossing_cost 1 2 60 64
            + mEx.repetition_cost 1 2 60 64
            + mEx.chord_penalty 1
            + mEx.weak_finger_cost 2) :=
  (total_cost_decomposition mEx 1 2 60 64 Hand.L Hand.L 1).1 rfl

/-- C3: for a validly constructed model (all required keys, full span
coverage), `solve` returns normally with one annotation per input note,
carrying positionally the note's `(onset_time, pitch)`. -/
theorem solve_preserves_notes (notes : List Note) (cfg : RawConfig)
    (m : FingeringCostModel) (hm : mkModel cfg = .ok m) (hv : validSpansL m) :
    solve notes cfg = .ok (solveTotal m notes)
    ∧ (solveTotal m notes).length = notes.length
    ∧ ∀ (i : ℕ) (hi : i < (solveTotal m notes).length) (hj : i < notes.length),
        ((solveTotal m notes).get ⟨i, hi⟩).pitch = (notes.get ⟨i, hj⟩).pitch
        ∧ ((solveTotal m notes).get ⟨i, hi⟩).onset_time = (notes.get ⟨i, hj⟩).start := by
  cases notes with
  | nil => exact ⟨rfl, rfl, fun i hi hj => absurd hj (Nat.not_lt_zero i)⟩
  | cons n0 rest =>
      refine ⟨solve_ok cfg m hm hv n0 rest, solveP_length m n0 rest, ?_⟩
      intro i hi hj
      simpa [List.get_eq_getElem] using solveP_getElem m n0 rest i hi hj

theorem solve_preserves_notes_witness :
    solve notesEx cfgEx = .ok (solveTotal mEx notesEx) :=
  (solve_preserves_notes notesEx cfgEx mEx rfl (by decide)).1

/-- C4: both minimisation loops replace the running best only when the
executable comparison `costLT` (which coincides with the strict order on
costs) answers strictly-less; the enumeration order is the fixed list
L1..L5, R1..R5; the terminal selection therefore returns the first state
achieving the minimal cost; and `solve` is deterministic. -/
theorem tie_break_first_wins :
    (∀ a b : Cost, costLT a b = true ↔ a < b)
    ∧ (∀ (acc : Cost × Option DPState) (c : Cost) (x : Option DPState),
        costLT c acc.1 = false → updateBest acc c x = acc)
    ∧ statesList
        = [(Hand.L, 1), (Hand.L, 2), (Hand.L, 3), (Hand.L, 4), (Hand.L, 5),
           (Hand.R, 1), (Hand.R, 2), (Hand.R, 3), (Hand.R, 4), (Hand.R, 5)]
    ∧ (∀ (l : List (DPState × Cost)),
        (∀ p ∈ l, p.2 < ⊤) → l ≠ [] →
        ∃ l1 p l2, l = l1 ++ p :: l2
          ∧ selectFinalPair l = (p.2, p.1)
          ∧ (∀ q ∈ l1, p.2 < q.2) ∧ (∀ q ∈ l, p.2 ≤ q.2))
    ∧ (∀ (notes : List Note) (cfg : RawConfig), solve notes cfg = solve notes cfg) := by
  refine ⟨costLT_iff, fun acc c x h => ?_, rfl, fun l hfin hne => ?_, fun _ _ => rfl⟩
  · unfold updateBest
    rw [h]
    rfl
  · rcases foldl_updateBest_firstMin Prod.snd Prod.fst l ⊤ (Hand.R, 1) with
      ⟨_, hall⟩ | ⟨l1, p, l2, hsplit, hfold, _, hbefore, hafter⟩
    · rcases List.exists_mem_of_ne_nil l hne with ⟨q, hq⟩
      exact absurd (hfin q hq) (hall q hq)
    · refine ⟨l1, p, l2, hsplit, hfold, hbefore, ?_⟩
      intro q hq
      rw [hsplit] at hq
      rcases List.mem_append.mp hq with hq | hq
      · exact (hbefore q hq).le
      · rcases List.mem_cons.mp hq with rfl | hq
        · exact le_refl _
        · exact hafter q hq

theorem tie_break_first_wins_witness :
    updateBest (((3 : ℚ) : Cost), (some (Hand.L, 1) : Option DPState))
        ((5 : ℚ) : Cost) (some (Hand.R, 2))
      = (((3 : ℚ) : Cost), some (Hand.L, 1)) :=
  tie_break_first_wins.2.1 _ _ _ (by decide)

/-- C5: the DP row at index 0 assigns each of the 10 states the cost
`weak_finger_cost(finger)` plus a bias of 0 when the hand is the natural
hand (`Left` iff the first pitch is at most `split_pitch`), and
`hand_switch_weight * 0.5` otherwise. -/
theorem init_row_formula (m : FingeringCostModel) (p0 : ℤ) (h : Hand)
    (f : Finger) (hs : (h, f) ∈ statesList) :
    (initRow m p0).lookup (h, f)
      = some (((m.weak_finger_cost f +
          (if h = (if p0 ≤ m.split_pitch then Hand.L else Hand.R) then 0
           else m.hand_switch_weight * (1/2)) : ℚ) : Cost)) := by
  rw [initRow_eq_rowOf, lookup_rowOf _ _ hs]
  rfl

theorem init_row_formula_witness :
    (initRow mEx 60).lookup (Hand.R, 4)
      = some (((mEx.weak_finger_cost 4 +
          (if Hand.R = (if (60 : ℤ) ≤ mEx.split_pitch then Hand.L else Hand.R) then 0
           else mEx.hand_switch_weight * (1/2)) : ℚ) : Cost)) :=
  init_row_formula mEx 60 Hand.R 4 (by decide)

/-- C6: raising any single one of the six weights (others fixed) can only
raise or keep the minimum cumulative DP cost: both runs return normally
under a valid span table, and the optimal cost is monotone. -/
theorem optimal_cost_weight_monotone (m : FingeringCostModel) (k : WeightKind)
    (v : ℚ) (n0 : Note) (rest : List Note)
    (hv : validSpansL m) (hk : getWeight m k ≤ v) :
    optimalCost m n0 rest = .ok (optimalCostP m n0 rest)
    ∧ optimalCost (setWeight m k v) n0 rest
        = .ok (optimalCostP (setWeight m k v) n0 rest)
    ∧ optimalCostP m n0 rest ≤ optimalCostP (setWeight m k v) n0 rest :=
  ⟨optimalCost_ok m hv n0 rest,
   optimalCost_ok _ (validSpans_setWeight m k v hv) n0 rest,
   optimalCostP_mono (modLe_setWeight m k v hk) n0 rest⟩

theorem optimal_cost_weight_monotone_witness :
    optimalCostP mEx ⟨60, 0, some 1⟩ [⟨64, 1/2, some 1⟩]
      ≤ optimalCostP (setWeight mEx WeightKind.stretch 2) ⟨60, 0, some 1⟩
          [⟨64, 1/2, some 1⟩] :=
  (optimal_cost_weight_monotone mEx WeightKind.stretch 2 ⟨60, 0, some 1⟩
    [⟨64, 1/2, some 1⟩] (by decide) (by decide)).2.2

/-- C7: a configuration containing every required key except
`hand_switch_weight` is rejected at construction with an error naming
exactly that key. -/
theorem missing_hand_switch_weight_rejected :
    mkModel cfgNoHSW = .error "hand_switch_weight" := rfl

/-- C8: on the empty note sequence `solve` returns the empty list (it
returns before the cost model is even constructed). -/
theorem solve_empty (cfg : RawConfig) : solve [] cfg = .ok [] := rfl

/-- C9: a note lacking the `chord_size` key is treated as having chord
size 1 (for which `chord_penalty` is 0): filling every missing
`chord_size` with the defaulted value changes nothing about `solve`. -/
theorem missing_chord_size_defaults_to_one :
    (∀ (p : ℤ) (s : ℚ), Note.chordSize ⟨p, s, none⟩ = 1)
    ∧ (∀ m : FingeringCostModel, m.chord_penalty 1 = 0)
    ∧ (∀ (notes : List Note) (cfg : RawConfig),
        solve (notes.map normChord) cfg = solve notes cfg) :=
  ⟨fun _ _ => rfl, fun _ => rfl, solve_norm⟩

/-- C10: on empty input `solve` always returns normally — no configuration
error of any kind can be raised, whatever the configuration, because the
empty case returns before `mkModel` runs. -/
theorem solve_empty_never_errors (cfg : RawConfig) :
    isOkE (solve [] cfg) = true := rfl

end Virtuoso
